import Mathlib

/-!
Shallow embedding of the asimov-backend search service.

Source files modelled:
- src/utils/embeddings.py : `to_pgvector` (vector wire formatting).
- src/utils/db.py         : connection pool scope `get_conn`, `search_videos`
  dispatcher and the three strategies `_search_semantic`, `_search_keyword`,
  `_search_hybrid` (Reciprocal Rank Fusion with damping constant 60).
- src/main.py             : the `/search` endpoint handler.

Numeric scores (cosine distance, `ts_rank`, RRF terms) are modelled as exact
rationals; the store's scoring builtins (`<=>`, `ts_rank`,
`websearch_to_tsquery` matching) are not repository code, so they are passed
as function parameters. SQL `ORDER BY` is modelled by a correct sort
(`sortBy`), whose tie order is one admissible realisation of the
unspecified SQL tie order.
-/

namespace Asimov

/-- A query/stored embedding vector (Python `list[float]` / pgvector). -/
abbrev Vec := List ℚ

/-- A row of the `egodex_videos` table, as read by the queries in
`src/utils/db.py` (task, s3_uri_mp4, s3_uri_h5, description).  The embedding
and `description_tsv` columns enter only through the score functions. -/
structure VideoRecord where
  task : String
  s3_uri_mp4 : String
  s3_uri_h5 : String
  description : String
  deriving Repr, DecidableEq

/-- One result dictionary built by the list comprehensions in
`src/utils/db.py`. -/
structure ScoredResult where
  task : String
  description : String
  score : ℚ
  mp4 : String
  hdf5 : String
  search_type : String
  deriving Repr, DecidableEq

/-! ## src/utils/embeddings.py -/

/-- The decimal digit character for `n % 10`. -/
def natDigitChar (n : Nat) : Char := Char.ofNat (48 + n % 10)

/-- Decimal digits of a natural number, most significant first, onto `acc`;
`fuel ≥ n` makes the recursion run to completion. -/
def natDigitsGo : Nat → Nat → List Char → List Char
  | 0, _, acc => acc
  | fuel + 1, n, acc =>
    if n = 0 then acc else natDigitsGo fuel (n / 10) (natDigitChar n :: acc)

/-- Decimal representation of a natural number (no sign, no padding). -/
def natRepr (n : Nat) : List Char :=
  if n = 0 then ['0'] else natDigitsGo n n []

/-- Round a rational to the nearest integer, ties to even — the rounding used
by Python `format(x, '.7f')` on the exact value of `x`. -/
def roundHalfEven (q : ℚ) : ℤ :=
  let f := ⌊q⌋
  if q - f < 1 / 2 then f
  else if 1 / 2 < q - f then f + 1
  else if f % 2 = 0 then f else f + 1

/-- The 7 fractional digits (zero padded) of `m < 10^7`, most significant
first. -/
def fracDigits7 (m : Nat) : List Char :=
  (List.range 7).map fun i => natDigitChar (m / 10 ^ (6 - i))

/-- Characters of Python `f"{x:.7f}"`: optional sign, integer digits, a dot,
then exactly 7 fractional digits. -/
def formatFixed7Chars (x : ℚ) : List Char :=
  let s := roundHalfEven (x * 10 ^ 7)
  let m := s.natAbs
  (if s < 0 then ['-'] else []) ++ natRepr (m / 10 ^ 7) ++ '.' :: fracDigits7 (m % 10 ^ 7)

/-- Python `f"{x:.7f}"` as a string. -/
def formatFixed7 (x : ℚ) : String := ⟨formatFixed7Chars x⟩

/-- Python `",".join(parts)` at the character level. -/
def joinComma : List (List Char) → List Char
  | [] => []
  | [s] => s
  | s :: rest => s ++ ',' :: joinComma rest

/-- `to_pgvector(vec)`: `"[" + ",".join(f"{x:.7f}" for x in vec) + "]"`. -/
def toPgvector (vec : List ℚ) : String :=
  ⟨'[' :: (joinComma (vec.map formatFixed7Chars) ++ [']'])⟩

/-! ## src/utils/db.py — the three strategies -/

/-- Build one result dictionary (`task`, `description`, `score`, `mp4`,
`hdf5`, `search_type`). -/
def mkResult (tag : String) (r : VideoRecord) (score : ℚ) : ScoredResult :=
  { task := r.task, description := r.description, score := score,
    mp4 := r.s3_uri_mp4, hdf5 := r.s3_uri_h5, search_type := tag }

/-- Insert `a` into `l` before the first element `b` with `le a b`. -/
def insertBy {α : Type} (le : α → α → Bool) (a : α) : List α → List α
  | [] => [a]
  | b :: t => if le a b then a :: b :: t else b :: insertBy le a t

/-- Insertion sort by `le` — the model of SQL `ORDER BY` (any sort correct
for `le` realises the unspecified tie order; this one is stable). -/
def sortBy {α : Type} (le : α → α → Bool) : List α → List α
  | [] => []
  | a :: t => insertBy le a (sortBy le t)

/-- `ORDER BY embedding <=> query` — ascending cosine distance. -/
def distSortAsc (d : VideoRecord → ℚ) (db : List VideoRecord) : List VideoRecord :=
  sortBy (fun a b => decide (d a ≤ d b)) db

/-- `ORDER BY score DESC` — descending text-relevance rank. -/
def rankSortDesc (rk : VideoRecord → ℚ) (l : List VideoRecord) : List VideoRecord :=
  sortBy (fun a b => decide (rk b ≤ rk a)) l

/-- `_search_semantic(conn, embedding, k)`: order all rows by ascending
distance to the query vector, take `k`, report the distance as score. -/
def searchSemantic (dist : Vec → VideoRecord → ℚ) (db : List VideoRecord)
    (embedding : Vec) (k : Nat) : List ScoredResult :=
  ((distSortAsc (dist embedding) db).take k).map fun r =>
    mkResult "semantic" r (dist embedding r)

/-- `_search_keyword(conn, query, k)`: keep rows matching the websearch
query (`WHERE description_tsv @@ ...`), order by `ts_rank` descending, take
`k`, report the rank as score. -/
def searchKeyword (tsMatch : String → VideoRecord → Bool)
    (tsRank : String → VideoRecord → ℚ) (db : List VideoRecord)
    (query : String) (k : Nat) : List ScoredResult :=
  ((rankSortDesc (tsRank query) (db.filter (tsMatch query))).take k).map fun r =>
    mkResult "keyword" r (tsRank query r)

/-! ## src/utils/db.py — hybrid (Reciprocal Rank Fusion) -/

/-- The `semantic` CTE of `_search_hybrid`: top `ck` rows by ascending
distance, each as `(s3_uri_h5, ROW_NUMBER)` with 1-based rank. -/
def semCandidates (dist : Vec → VideoRecord → ℚ) (db : List VideoRecord)
    (embedding : Vec) (ck : Nat) : List (String × Nat) :=
  ((distSortAsc (dist embedding) db).take ck).enum.map fun p =>
    (p.2.s3_uri_h5, p.1 + 1)

/-- The `keyword` CTE of `_search_hybrid`: matching rows, `ROW_NUMBER` over
`ts_rank` descending, limited to `ck`, as `(s3_uri_h5, rank)`. -/
def kwCandidates (tsMatch : String → VideoRecord → Bool)
    (tsRank : String → VideoRecord → ℚ) (db : List VideoRecord)
    (query : String) (ck : Nat) : List (String × Nat) :=
  ((rankSortDesc (tsRank query) (db.filter (tsMatch query))).take ck).enum.map fun p =>
    (p.2.s3_uri_h5, p.1 + 1)

/-- `COALESCE(1.0 / (60 + rank), 0.0)`: one RRF term. -/
def rrfTerm : Option Nat → ℚ
  | some r => 1 / (60 + (r : ℚ))
  | none => 0

/-- Rank of `key` within a candidate list (SQL join lookup on `s3_uri_h5`). -/
def lookupRank (l : List (String × Nat)) (key : String) : Option Nat :=
  (l.find? fun p => p.1 = key).map Prod.snd

/-- The `rrf` CTE: `FULL OUTER JOIN` of the two candidate lists on
`s3_uri_h5` (a unique key), with score the sum of the two `COALESCE`d RRF
terms.  Rows with a semantic rank come first, then keyword-only rows. -/
def rrfUnion (sem kw : List (String × Nat)) : List (String × ℚ) :=
  (sem.map fun p => (p.1, rrfTerm (some p.2) + rrfTerm (lookupRank kw p.1))) ++
    ((kw.filter fun p => lookupRank sem p.1 = none).map fun p =>
      (p.1, rrfTerm none + rrfTerm (some p.2)))

/-- `ORDER BY rrf.rrf_score DESC`. -/
def fusedSortDesc (l : List (String × ℚ)) : List (String × ℚ) :=
  sortBy (fun a b => decide (b.2 ≤ a.2)) l

/-- Final `SELECT` of `_search_hybrid`: join the fused rows back to
`egodex_videos` on `s3_uri_h5` (unique key, so `find?`), order by fused
score descending, `LIMIT k`. -/
def joinBack (db : List VideoRecord) (p : String × ℚ) : Option ScoredResult :=
  (db.find? fun r => r.s3_uri_h5 = p.1).map fun r => mkResult "hybrid" r p.2

/-- `_search_hybrid(conn, query, embedding, k)`: fetch `k * 2` candidates
from each strategy, fuse by RRF with damping constant 60, return the top
`k`. -/
def searchHybrid (dist : Vec → VideoRecord → ℚ)
    (tsMatch : String → VideoRecord → Bool) (tsRank : String → VideoRecord → ℚ)
    (db : List VideoRecord) (query : String) (embedding : Vec) (k : Nat) :
    List ScoredResult :=
  let ck := k * 2
  ((fusedSortDesc (rrfUnion (semCandidates dist db embedding ck)
      (kwCandidates tsMatch tsRank db query ck))).take k).filterMap (joinBack db)

/-! ## src/utils/db.py — dispatcher `search_videos` -/

/-- Exceptions a `search_videos` call can raise: the explicit
`ValueError(f"Invalid search mode: ...")`, and the `TypeError` from
`float(None)` when a NULL embedding makes every semantic score NULL. -/
inductive SearchError where
  | invalidMode (mode : String)
  | typeError
  deriving Repr, DecidableEq

/-- `_search_hybrid` reached with `embedding = None`: the semantic CTE sorts
by `NULL <=> NULL` (all NULL), so its `ROW_NUMBER` order is unspecified —
modelled as table order.  The `COALESCE`s make every fused score non-NULL,
so the call still returns rows. -/
def hybridNullEmbedding (tsMatch : String → VideoRecord → Bool)
    (tsRank : String → VideoRecord → ℚ) (db : List VideoRecord)
    (query : String) (k : Nat) : List ScoredResult :=
  let ck := k * 2
  ((fusedSortDesc (rrfUnion ((db.take ck).enum.map fun p => (p.2.s3_uri_h5, p.1 + 1))
      (kwCandidates tsMatch tsRank db query ck))).take k).filterMap (joinBack db)

/-- `search_videos(conn, query, k, mode, embedding)`.  The first component
records whether a query was executed against the store.  `search_videos`
performs no validation of `embedding`: with `mode="semantic"` and
`embedding=None` the SQL runs with a NULL vector (every distance NULL) and
the later `float(score)` raises `TypeError` whenever a row came back. -/
def searchVideos (dist : Vec → VideoRecord → ℚ)
    (tsMatch : String → VideoRecord → Bool) (tsRank : String → VideoRecord → ℚ)
    (db : List VideoRecord) (query : String) (k : Nat) (mode : String)
    (embedding : Option Vec) : Bool × Except SearchError (List ScoredResult) :=
  if mode = "semantic" then
    match embedding with
    | some v => (true, .ok (searchSemantic dist db v k))
    | none => (true, if k = 0 ∨ db.isEmpty then .ok [] else .error .typeError)
  else if mode = "keyword" then
    (true, .ok (searchKeyword tsMatch tsRank db query k))
  else if mode = "hybrid" then
    match embedding with
    | some v => (true, .ok (searchHybrid dist tsMatch tsRank db query v k))
    | none => (true, .ok (hybridNullEmbedding tsMatch tsRank db query k))
  else (false, .error (.invalidMode mode))

/-! ## src/utils/db.py — connection pool scope `get_conn` -/

/-- The free list of `SimpleConnectionPool` (connections by id). -/
structure Pool where
  free : List Nat
  deriving Repr, DecidableEq

/-- `_pool.putconn(conn)`: return a connection to the free list. -/
def poolPutconn (p : Pool) (c : Nat) : Pool := ⟨c :: p.free⟩

/-- Acquire/release events observed on the pool. -/
inductive ConnEvent where
  | acquire (c : Nat)
  | release (c : Nat)
  deriving Repr, DecidableEq

/-- `with get_conn() as conn: body(conn)` — `conn = _pool.getconn()`, then
`try: yield conn / finally: _pool.putconn(conn)`.  Returns the final pool,
the event trace, and `body`'s outcome (`none` when the pool was exhausted
and no connection was ever acquired). -/
def getConnRun {E A : Type} (p : Pool) (body : Nat → Except E A) :
    Pool × List ConnEvent × Option (Except E A) :=
  match p.free with
  | [] => (p, [], none)
  | c :: rest =>
    match body c with
    | .ok a => (poolPutconn ⟨rest⟩ c, [.acquire c, .release c], some (.ok a))
    | .error e => (poolPutconn ⟨rest⟩ c, [.acquire c, .release c], some (.error e))

/-! ## src/main.py — the `/search` endpoint -/

/-- The closed `Literal["semantic", "keyword", "hybrid"]` of the endpoint. -/
inductive Mode where
  | semantic
  | keyword
  | hybrid
  deriving Repr, DecidableEq

/-- The mode string passed through to `search_videos`. -/
def Mode.toStr : Mode → String
  | .semantic => "semantic"
  | .keyword => "keyword"
  | .hybrid => "hybrid"

/-- Python `q.strip()`: drop the maximal whitespace prefix and suffix. -/
def pyStrip (s : String) : String :=
  ⟨((s.data.dropWhile Char.isWhitespace).reverse.dropWhile Char.isWhitespace).reverse⟩

/-- HTTP errors raised by the handler (FastAPI `HTTPException` and the
generic 500 for an uncaught exception). -/
inductive HTTPError where
  | badRequest (detail : String)
  | serverError
  deriving Repr, DecidableEq

/-- `emb_text`: the handler computes an embedding exactly when
`mode in ("semantic", "hybrid")`, else leaves it `None`. -/
def endpointEmbOpt (embed : String → Vec) (text : String) (mode : Mode) : Option Vec :=
  if mode = Mode.semantic ∨ mode = Mode.hybrid then some (embed text) else none

/-- The `/search` handler: FastAPI validates `k` (`ge=1, le=100`), the
handler strips `q`, rejects an empty result, computes `emb_text` for
semantic/hybrid, and runs `search_videos` on a pooled connection. -/
def searchEndpoint (embed : String → Vec) (dist : Vec → VideoRecord → ℚ)
    (tsMatch : String → VideoRecord → Bool) (tsRank : String → VideoRecord → ℚ)
    (db : List VideoRecord) (q : String) (k : Nat) (mode : Mode) :
    Except HTTPError (List ScoredResult) :=
  if 1 ≤ k ∧ k ≤ 100 then
    let text := pyStrip q
    if text = "" then .error (.badRequest "q must be non-empty")
    else
      match (searchVideos dist tsMatch tsRank db text k mode.toStr
          (endpointEmbOpt embed text mode)).2 with
      | .ok rs => .ok rs
      | .error _ => .error .serverError
  else .error (.badRequest "k out of range")

/-! ## Sorting facts shared by several claims -/

theorem insertBy_perm {α : Type} (le : α → α → Bool) (a : α) (l : List α) :
    (insertBy le a l).Perm (a :: l) := by
  induction l with
  | nil => rfl
  | cons b t ih =>
    by_cases h : le a b
    · rw [insertBy, if_pos h]
    · rw [insertBy, if_neg h]
      exact (ih.cons b).trans (List.Perm.swap a b t)

theorem sortBy_perm {α : Type} (le : α → α → Bool) (l : List α) :
    (sortBy le l).Perm l := by
  induction l with
  | nil => rfl
  | cons a t ih => exact (insertBy_perm le a (sortBy le t)).trans (ih.cons a)

theorem insertBy_pairwise {α : Type} (le : α → α → Bool)
    (htot : ∀ x y, le x y = true ∨ le y x = true)
    (htrans : ∀ x y z, le x y = true → le y z = true → le x z = true)
    (a : α) (l : List α) (hl : l.Pairwise fun x y => le x y = true) :
    (insertBy le a l).Pairwise fun x y => le x y = true := by
  induction l with
  | nil => simp [insertBy]
  | cons b t ih =>
    rcases hl with _ | ⟨hb, ht⟩
    by_cases h : le a b
    · rw [insertBy, if_pos h]
      refine List.Pairwise.cons ?_ (List.Pairwise.cons hb ht)
      intro x hx
      rcases List.mem_cons.mp hx with rfl | hx2
      · exact h
      · exact htrans a b x h (hb x hx2)
    · rw [insertBy, if_neg h]
      refine List.Pairwise.cons ?_ (ih ht)
      intro x hx
      have hx2 := (insertBy_perm le a t).mem_iff.mp hx
      rcases List.mem_cons.mp hx2 with hax | hx3
      · rw [hax]
        rcases htot a b with hab | hba
        · exact absurd hab h
        · exact hba
      · exact hb x hx3

theorem sortBy_pairwise {α : Type} (le : α → α → Bool)
    (htot : ∀ x y, le x y = true ∨ le y x = true)
    (htrans : ∀ x y z, le x y = true → le y z = true → le x z = true)
    (l : List α) : (sortBy le l).Pairwise fun x y => le x y = true := by
  induction l with
  | nil => simp [sortBy]
  | cons a t ih => exact insertBy_pairwise le htot htrans a (sortBy le t) ih

theorem distSortAsc_pairwise (d : VideoRecord → ℚ) (db : List VideoRecord) :
    (distSortAsc d db).Pairwise fun a b => d a ≤ d b := by
  have h := sortBy_pairwise (fun a b => decide (d a ≤ d b))
    (fun x y => by simp only [decide_eq_true_eq]; exact le_total _ _)
    (fun x y z hxy hyz => by
      simp only [decide_eq_true_eq] at hxy hyz ⊢; exact le_trans hxy hyz)
    db
  exact h.imp (by simp only [decide_eq_true_eq]; exact fun h => h)

theorem rankSortDesc_pairwise (rk : VideoRecord → ℚ) (l : List VideoRecord) :
    (rankSortDesc rk l).Pairwise fun a b => rk b ≤ rk a := by
  have h := sortBy_pairwise (fun a b => decide (rk b ≤ rk a))
    (fun x y => by simp only [decide_eq_true_eq]; exact le_total _ _)
    (fun x y z hxy hyz => by
      simp only [decide_eq_true_eq] at hxy hyz ⊢; exact le_trans hyz hxy)
    l
  exact h.imp (by simp only [decide_eq_true_eq]; exact fun h => h)

theorem fusedSortDesc_pairwise (l : List (String × ℚ)) :
    (fusedSortDesc l).Pairwise fun a b => b.2 ≤ a.2 := by
  have h := sortBy_pairwise (fun a b : String × ℚ => decide (b.2 ≤ a.2))
    (fun x y => by simp only [decide_eq_true_eq]; exact le_total _ _)
    (fun x y z hxy hyz => by
      simp only [decide_eq_true_eq] at hxy hyz ⊢; exact le_trans hyz hxy)
    l
  exact h.imp (by simp only [decide_eq_true_eq]; exact fun h => h)

theorem distSortAsc_perm (d : VideoRecord → ℚ) (db : List VideoRecord) :
    (distSortAsc d db).Perm db := sortBy_perm _ db

theorem rankSortDesc_perm (rk : VideoRecord → ℚ) (l : List VideoRecord) :
    (rankSortDesc rk l).Perm l := sortBy_perm _ l

theorem fusedSortDesc_perm (l : List (String × ℚ)) :
    (fusedSortDesc l).Perm l := sortBy_perm _ l

/-- Unpack one fused output row: it came from a fused pair whose key found
its record in the table. -/
theorem mem_filterMap_joinBack (db : List VideoRecord) (l : List (String × ℚ))
    (res : ScoredResult) (h : res ∈ l.filterMap (joinBack db)) :
    ∃ p ∈ l, ∃ r ∈ db, r.s3_uri_h5 = p.1 ∧ res = mkResult "hybrid" r p.2 := by
  rcases List.mem_filterMap.mp h with ⟨p, hp, hjoin⟩
  unfold joinBack at hjoin
  rcases Option.map_eq_some'.mp hjoin with ⟨r, hfind, hres⟩
  exact ⟨p, hp, r, List.mem_of_find?_eq_some hfind,
    by simpa using List.find?_some hfind, hres.symm⟩

/-! ## Concrete instances used by witnesses and counterexamples -/

def wRec : VideoRecord := ⟨"fold towel", "s3://m.mp4", "s3://h.h5", "fold the towel"⟩

def wRec2 : VideoRecord := ⟨"pour cup", "s3://m2.mp4", "s3://h2.h5", "pour the red cup"⟩

def wDist : Vec → VideoRecord → ℚ := fun _ r => if r = wRec then 1 else 2

def wMatch : String → VideoRecord → Bool := fun _ r => r = wRec2

def wRank : String → VideoRecord → ℚ := fun _ _ => 5

def wEmbed : String → Vec := fun _ => [1, 0]

/-! ## Claims -/

/-- Claim C3: the RRF score of a record present in both candidate lists at
ranks `r1`, `r2` is at least the RRF score of a record present in only one
list at rank `min r1 r2`: fusion never penalizes dual presence. -/
theorem rrf_never_penalizes_dual_presence (r1 r2 : Nat) :
    rrfTerm (some (min r1 r2)) + rrfTerm none ≤
      rrfTerm (some r1) + rrfTerm (some r2) := by
  have h1 : (0 : ℚ) ≤ 1 / (60 + (r1 : ℚ)) := by positivity
  have h2 : (0 : ℚ) ≤ 1 / (60 + (r2 : ℚ)) := by positivity
  rcases le_total r1 r2 with h | h
  · simp only [rrfTerm, min_eq_left h, add_zero]
    exact le_add_of_nonneg_right h2
  · simp only [rrfTerm, min_eq_right h, add_zero]
    exact le_add_of_nonneg_left h1

/-- Claim C7: `with get_conn() as conn` acquires one connection and releases
exactly that connection exactly once, on the success path and on the error
path alike; the pool ends as it began for every possible body. -/
theorem get_conn_releases_on_every_path {E A : Type} (p : Pool)
    (body : Nat → Except E A) (h : p.free ≠ []) :
    (getConnRun p body).1 = p ∧
    (getConnRun p body).2.1 =
      [ConnEvent.acquire (p.free.head h), ConnEvent.release (p.free.head h)] ∧
    (getConnRun p body).2.2 = some (body (p.free.head h)) := by
  obtain ⟨fl⟩ := p
  match fl, h with
  | c :: rest, _ =>
    cases hb : body c <;>
      simp [getConnRun, poolPutconn, hb]

/-- Witness for C7 at a concrete pool and a body that raises. -/
theorem get_conn_releases_on_every_path_witness :
    (getConnRun (⟨[7, 8]⟩ : Pool) (fun _ => (Except.error () : Except Unit Unit))).1 =
        (⟨[7, 8]⟩ : Pool) ∧
      (getConnRun (⟨[7, 8]⟩ : Pool) (fun _ => (Except.error () : Except Unit Unit))).2.1 =
        [ConnEvent.acquire 7, ConnEvent.release 7] ∧
      (getConnRun (⟨[7, 8]⟩ : Pool) (fun _ => (Except.error () : Except Unit Unit))).2.2 =
        some (Except.error ()) := by
  simpa using get_conn_releases_on_every_path (⟨[7, 8]⟩ : Pool)
    (fun _ => (Except.error () : Except Unit Unit)) (by simp)

theorem search_type_semantic (dist : Vec → VideoRecord → ℚ) (db : List VideoRecord)
    (v : Vec) (k : Nat) (res : ScoredResult) (h : res ∈ searchSemantic dist db v k) :
    res.search_type = "semantic" := by
  rcases List.mem_map.mp h with ⟨r, _, hr⟩
  rw [← hr]; rfl

theorem search_type_keyword (tsMatch : String → VideoRecord → Bool)
    (tsRank : String → VideoRecord → ℚ) (db : List VideoRecord) (query : String)
    (k : Nat) (res : ScoredResult) (h : res ∈ searchKeyword tsMatch tsRank db query k) :
    res.search_type = "keyword" := by
  rcases List.mem_map.mp h with ⟨r, _, hr⟩
  rw [← hr]; rfl

theorem search_type_hybrid (dist : Vec → VideoRecord → ℚ)
    (tsMatch : String → VideoRecord → Bool) (tsRank : String → VideoRecord → ℚ)
    (db : List VideoRecord) (query : String) (v : Vec) (k : Nat)
    (res : ScoredResult) (h : res ∈ searchHybrid dist tsMatch tsRank db query v k) :
    res.search_type = "hybrid" := by
  rcases mem_filterMap_joinBack db _ res h with ⟨p, _, r, _, _, hres⟩
  rw [hres]; rfl

theorem search_type_hybrid_null (tsMatch : String → VideoRecord → Bool)
    (tsRank : String → VideoRecord → ℚ) (db : List VideoRecord) (query : String)
    (k : Nat) (res : ScoredResult) (h : res ∈ hybridNullEmbedding tsMatch tsRank db query k) :
    res.search_type = "hybrid" := by
  rcases mem_filterMap_joinBack db _ res h with ⟨p, _, r, _, _, hres⟩
  rw [hres]; rfl

/-- Claim C9: whenever `search_videos` returns a result list, every result
carries the `search_type` tag of the requested mode — tags are never mixed
and never differ from the mode that produced them. -/
theorem search_type_eq_requested_mode (dist : Vec → VideoRecord → ℚ)
    (tsMatch : String → VideoRecord → Bool) (tsRank : String → VideoRecord → ℚ)
    (db : List VideoRecord) (query : String) (k : Nat) (mode : String)
    (embedding : Option Vec) (rs : List ScoredResult)
    (hok : (searchVideos dist tsMatch tsRank db query k mode embedding).2 = Except.ok rs)
    (res : ScoredResult) (hres : res ∈ rs) : res.search_type = mode := by
  unfold searchVideos at hok
  by_cases h1 : mode = "semantic"
  · subst h1
    rw [if_pos rfl] at hok
    cases embedding with
    | some v =>
      cases hok
      exact search_type_semantic dist db v k res hres
    | none =>
      by_cases hc : k = 0 ∨ db.isEmpty
      · rw [if_pos hc] at hok
        cases hok
        exact absurd hres (List.not_mem_nil res)
      · rw [if_neg hc] at hok
        exact Except.noConfusion hok
  · by_cases h2 : mode = "keyword"
    · subst h2
      have hne : ("keyword" : String) ≠ "semantic" := by decide
      rw [if_neg hne, if_pos rfl] at hok
      cases hok
      exact search_type_keyword tsMatch tsRank db query k res hres
    · by_cases h3 : mode = "hybrid"
      · subst h3
        have hne : ("hybrid" : String) ≠ "semantic" := by decide
        have hne2 : ("hybrid" : String) ≠ "keyword" := by decide
        rw [if_neg hne, if_neg hne2, if_pos rfl] at hok
        cases embedding with
        | some v =>
          cases hok
          exact search_type_hybrid dist tsMatch tsRank db query v k res hres
        | none =>
          cases hok
          exact search_type_hybrid_null tsMatch tsRank db query k res hres
      · rw [if_neg h1, if_neg h2, if_neg h3] at hok
        exact Except.noConfusion hok

/-- Witness for C9 at a concrete keyword-mode call. -/
theorem search_type_eq_requested_mode_witness :
    (searchVideos wDist wMatch wRank [wRec, wRec2] "cup" 1 "keyword" none).2 =
        Except.ok [mkResult "keyword" wRec2 5] ∧
      (mkResult "keyword" wRec2 5).search_type = "keyword" :=
  ⟨by rfl, search_type_eq_requested_mode wDist wMatch wRank [wRec, wRec2] "cup" 1
    "keyword" none [mkResult "keyword" wRec2 5] (by rfl) (mkResult "keyword" wRec2 5)
    (List.mem_singleton.mpr rfl)⟩

/-- Counterexample to C6 as stated: `search_videos` called with
`mode="semantic"` and `embedding=None` on a one-row table does not fail
validation — it executes the query against the store (first component
`true`) and the failure it eventually raises is the `TypeError` from
`float(None)` on the fetched row, after the query ran. -/
theorem searchVideos_missing_vector_reaches_store :
    (searchVideos wDist wMatch wRank [wRec] "fold" 5 "semantic" none).1 = true ∧
      (searchVideos wDist wMatch wRank [wRec] "fold" 5 "semantic" none).2 =
        Except.error SearchError.typeError := ⟨rfl, rfl⟩

/-- Claim C6, amended: `search_videos` itself does not validate a missing
vector (see the counterexample), but the HTTP handler computes `emb_text`
for every semantic/hybrid request before touching the store, so through the
endpoint the store always receives a present embedding — and the call
returns a result list rather than raising. -/
theorem endpoint_always_supplies_embedding (embed : String → Vec)
    (dist : Vec → VideoRecord → ℚ) (tsMatch : String → VideoRecord → Bool)
    (tsRank : String → VideoRecord → ℚ) (db : List VideoRecord) (q : String)
    (k : Nat) (mode : Mode) (hm : mode = Mode.semantic ∨ mode = Mode.hybrid)
    (hq : pyStrip q ≠ "") (hk : 1 ≤ k ∧ k ≤ 100) :
    endpointEmbOpt embed (pyStrip q) mode = some (embed (pyStrip q)) ∧
    ∃ rs, (searchVideos dist tsMatch tsRank db (pyStrip q) k mode.toStr
        (endpointEmbOpt embed (pyStrip q) mode)).2 = Except.ok rs ∧
      searchEndpoint embed dist tsMatch tsRank db q k mode = Except.ok rs := by
  have hemb : endpointEmbOpt embed (pyStrip q) mode = some (embed (pyStrip q)) := by
    rw [endpointEmbOpt, if_pos hm]
  refine ⟨hemb, ?_⟩
  rcases hm with hm | hm <;> subst hm
  · refine ⟨searchSemantic dist db (embed (pyStrip q)) k, ?_, ?_⟩
    · rw [hemb]; rfl
    · rw [searchEndpoint, if_pos hk, if_neg hq, hemb]; rfl
  · refine ⟨searchHybrid dist tsMatch tsRank db (pyStrip q) (embed (pyStrip q)) k, ?_, ?_⟩
    · rw [hemb]; rfl
    · rw [searchEndpoint, if_pos hk, if_neg hq, hemb]; rfl

/-- Witness for the amended C6 at a concrete semantic request. -/
theorem endpoint_always_supplies_embedding_witness :
    (Mode.semantic = Mode.semantic ∨ Mode.semantic = Mode.hybrid) ∧
      pyStrip " fold " ≠ "" ∧ (1 ≤ 2 ∧ 2 ≤ 100) ∧
      (endpointEmbOpt wEmbed (pyStrip " fold ") Mode.semantic =
          some (wEmbed (pyStrip " fold ")) ∧
        ∃ rs, (searchVideos wDist wMatch wRank [wRec] (pyStrip " fold ") 2
            Mode.semantic.toStr (endpointEmbOpt wEmbed (pyStrip " fold ")
              Mode.semantic)).2 = Except.ok rs ∧
          searchEndpoint wEmbed wDist wMatch wRank [wRec] " fold " 2
            Mode.semantic = Except.ok rs) :=
  ⟨Or.inl rfl, by decide, by decide,
    endpoint_always_supplies_embedding wEmbed wDist wMatch wRank [wRec] " fold " 2
      Mode.semantic (Or.inl rfl) (by decide) (by decide)⟩

/-- A list already left-stripped stays unchanged when stripped again after
its whitespace suffix is removed. -/
theorem dropWhile_of_strip_fix (p : Char → Bool) (M : List Char)
    (hM : M.dropWhile p = M) :
    ((M.reverse.dropWhile p).reverse).dropWhile p = (M.reverse.dropWhile p).reverse := by
  cases hNc : (M.reverse.dropWhile p).reverse with
  | nil => rfl
  | cons h0 t0 =>
    have hpre : (M.reverse.dropWhile p).reverse <+: M := by
      rcases List.dropWhile_suffix (l := M.reverse) p with ⟨t, ht⟩
      refine ⟨t.reverse, ?_⟩
      rw [← List.reverse_append, ht, List.reverse_reverse]
    rw [hNc] at hpre
    rcases hpre with ⟨rest, hrest⟩
    by_cases hp : p h0
    · exfalso
      rw [← hrest, List.cons_append, List.dropWhile_cons, if_pos hp] at hM
      have hlen := (List.dropWhile_suffix (l := t0 ++ rest) p).length_le
      rw [hM] at hlen
      simp at hlen
    · rw [List.dropWhile_cons]
      simp [hp]

/-- Python `strip` is idempotent. -/
theorem pyStrip_idem (s : String) : pyStrip (pyStrip s) = pyStrip s := by
  unfold pyStrip
  have hM : (s.data.dropWhile Char.isWhitespace).dropWhile Char.isWhitespace =
      s.data.dropWhile Char.isWhitespace := List.dropWhile_idempotent _ _
  have h1 := dropWhile_of_strip_fix Char.isWhitespace
    (s.data.dropWhile Char.isWhitespace) hM
  congr 1
  rw [show (⟨(((s.data.dropWhile Char.isWhitespace).reverse.dropWhile
      Char.isWhitespace)).reverse⟩ : String).data =
      ((s.data.dropWhile Char.isWhitespace).reverse.dropWhile
        Char.isWhitespace).reverse from rfl]
  rw [h1, List.reverse_reverse, List.dropWhile_idempotent]

/-- Claim C10: the `/search` handler strips `q` before embedding and
retrieval, so a query with surrounding whitespace returns exactly what the
pre-trimmed query returns. -/
theorem search_trim_equivalence (embed : String → Vec)
    (dist : Vec → VideoRecord → ℚ) (tsMatch : String → VideoRecord → Bool)
    (tsRank : String → VideoRecord → ℚ) (db : List VideoRecord) (q : String)
    (k : Nat) (mode : Mode) (hq : pyStrip q ≠ "") :
    searchEndpoint embed dist tsMatch tsRank db q k mode =
      searchEndpoint embed dist tsMatch tsRank db (pyStrip q) k mode := by
  unfold searchEndpoint
  rw [pyStrip_idem]

/-- Witness for C10 at a concrete whitespace-padded query. -/
theorem search_trim_equivalence_witness :
    pyStrip "  fold towel \t" ≠ "" ∧
      searchEndpoint wEmbed wDist wMatch wRank [wRec, wRec2] "  fold towel \t" 3
          Mode.hybrid =
        searchEndpoint wEmbed wDist wMatch wRank [wRec, wRec2]
          (pyStrip "  fold towel \t") 3 Mode.hybrid :=
  ⟨by decide, search_trim_equivalence wEmbed wDist wMatch wRank [wRec, wRec2]
    "  fold towel \t" 3 Mode.hybrid (by decide)⟩

theorem natDigitChar_isDigit (n : Nat) : (natDigitChar n).isDigit = true := by
  unfold natDigitChar
  have h : n % 10 < 10 := Nat.mod_lt _ (by norm_num)
  generalize n % 10 = r at h ⊢
  interval_cases r <;> decide

theorem natDigitsGo_mem (fuel : Nat) :
    ∀ n acc c, c ∈ natDigitsGo fuel n acc → c ∈ acc ∨ c.isDigit = true := by
  induction fuel with
  | zero => intro n acc c hc; exact Or.inl hc
  | succ fl ih =>
    intro n acc c hc
    rw [natDigitsGo] at hc
    by_cases hn : n = 0
    · rw [if_pos hn] at hc; exact Or.inl hc
    · rw [if_neg hn] at hc
      rcases ih (n / 10) _ c hc with h | h
      · rcases List.mem_cons.mp h with rfl | h2
        · exact Or.inr (natDigitChar_isDigit n)
        · exact Or.inl h2
      · exact Or.inr h

theorem natRepr_digits (n : Nat) (c : Char) (hc : c ∈ natRepr n) :
    c.isDigit = true := by
  unfold natRepr at hc
  by_cases hn : n = 0
  · rw [if_pos hn] at hc
    rcases List.mem_singleton.mp hc with rfl
    decide
  · rw [if_neg hn] at hc
    rcases natDigitsGo_mem n n [] c hc with h | h
    · exact absurd h (List.not_mem_nil c)
    · exact h

theorem fracDigits7_length (m : Nat) : (fracDigits7 m).length = 7 := by
  simp [fracDigits7]

theorem fracDigits7_digits (m : Nat) (c : Char) (hc : c ∈ fracDigits7 m) :
    c.isDigit = true := by
  rcases List.mem_map.mp hc with ⟨i, _, rfl⟩
  exact natDigitChar_isDigit _

theorem isDigit_not_whitespace (c : Char) (h : c.isDigit = true) :
    c.isWhitespace = false := by
  by_contra hws
  rw [Bool.not_eq_false] at hws
  simp [Char.isWhitespace] at hws
  simp [Char.isDigit] at h
  rcases hws with ((h1 | h1) | h1) | h1 <;> subst h1 <;> simp_all

/-- Each formatted component's characters: digits, a minus sign, or the
decimal point. -/
theorem formatFixed7Chars_mem (x : ℚ) (c : Char) (hc : c ∈ formatFixed7Chars x) :
    c.isDigit = true ∨ c = '-' ∨ c = '.' := by
  unfold formatFixed7Chars at hc
  rcases List.mem_append.mp hc with h | h
  · rcases List.mem_append.mp h with h2 | h2
    · split at h2
      · rcases List.mem_singleton.mp h2 with rfl
        exact Or.inr (Or.inl rfl)
      · exact absurd h2 (List.not_mem_nil c)
    · exact Or.inl (natRepr_digits _ c h2)
  · rcases List.mem_cons.mp h with rfl | h3
    · exact Or.inr (Or.inr rfl)
    · exact Or.inl (fracDigits7_digits _ c h3)

/-- Characters of the joined component list: a separating comma or a
component character. -/
theorem joinComma_mem (ss : List (List Char)) (c : Char) (hc : c ∈ joinComma ss) :
    c = ',' ∨ ∃ s ∈ ss, c ∈ s := by
  induction ss with
  | nil => exact absurd hc (List.not_mem_nil c)
  | cons s rest ih =>
    cases rest with
    | nil =>
      exact Or.inr ⟨s, List.mem_singleton.mpr rfl, hc⟩
    | cons s2 rest2 =>
      have hc2 : c ∈ s ++ ',' :: joinComma (s2 :: rest2) := hc
      rcases List.mem_append.mp hc2 with h | h
      · exact Or.inr ⟨s, List.mem_cons_self _ _, h⟩
      · rcases List.mem_cons.mp h with rfl | h2
        · exact Or.inl rfl
        · rcases ih h2 with h3 | ⟨s3, hs3, hcs3⟩
          · exact Or.inl h3
          · exact Or.inr ⟨s3, List.mem_cons_of_mem _ hs3, hcs3⟩

/-- Claim C8: `to_pgvector` is total on rational vectors and produces
`"[" + ",".join(components) + "]"`; every component splits as
`pre ++ "." ++ post` with no dot in `pre` and exactly 7 decimal digits in
`post`; no character of the output is whitespace. -/
theorem to_pgvector_wire_format (vec : List ℚ) :
    (toPgvector vec).data = '[' :: (joinComma (vec.map formatFixed7Chars) ++ [']']) ∧
    (∀ x : ℚ, ∃ pre post : List Char,
      formatFixed7Chars x = pre ++ '.' :: post ∧ post.length = 7 ∧
      (∀ c ∈ post, c.isDigit = true) ∧ '.' ∉ pre) ∧
    (∀ c ∈ (toPgvector vec).data, c.isWhitespace = false) := by
  refine ⟨rfl, ?_, ?_⟩
  · intro x
    refine ⟨(if roundHalfEven (x * 10 ^ 7) < 0 then ['-'] else []) ++
        natRepr ((roundHalfEven (x * 10 ^ 7)).natAbs / 10 ^ 7),
      fracDigits7 ((roundHalfEven (x * 10 ^ 7)).natAbs % 10 ^ 7),
      ?_, fracDigits7_length _, fun c hc => fracDigits7_digits _ c hc, ?_⟩
    · unfold formatFixed7Chars
      rfl
    · intro hdot
      rcases List.mem_append.mp hdot with h | h
      · split at h
        · rcases List.mem_singleton.mp h with h2
          exact absurd h2 (by decide)
        · exact absurd h (List.not_mem_nil _)
      · have := natRepr_digits _ _ h
        exact absurd this (by decide)
  · intro c hc
    rcases List.mem_cons.mp hc with rfl | h
    · decide
    · rcases List.mem_append.mp h with h2 | h2
      · rcases joinComma_mem _ c h2 with rfl | ⟨s, hs, hcs⟩
        · decide
        · rcases List.mem_map.mp hs with ⟨x, _, rfl⟩
          rcases formatFixed7Chars_mem x c hcs with hd | rfl | rfl
          · exact isDigit_not_whitespace c hd
          · decide
          · decide
      · rcases List.mem_singleton.mp h2 with rfl
        decide

/-- Witness for C8's bounded statements at a concrete vector. -/
theorem to_pgvector_wire_format_witness :
    ('[' ∈ (toPgvector ([] : List ℚ)).data) ∧
      Char.isWhitespace '[' = false :=
  ⟨by decide, (to_pgvector_wire_format []).2.2 '[' (by decide)⟩

/-- A row surviving the fused join-back carries the fused pair's score. -/
theorem joinBack_score (db : List VideoRecord) (p : String × ℚ) (res : ScoredResult)
    (h : joinBack db p = some res) : res.score = p.2 := by
  unfold joinBack at h
  rcases Option.map_eq_some'.mp h with ⟨r, _, hres⟩
  rw [← hres]; rfl

/-- A row surviving the fused join-back carries the fused pair's key. -/
theorem joinBack_key (db : List VideoRecord) (p : String × ℚ) (res : ScoredResult)
    (h : joinBack db p = some res) : res.hdf5 = p.1 := by
  unfold joinBack at h
  rcases Option.map_eq_some'.mp h with ⟨r, hfind, hres⟩
  have := List.find?_some hfind
  rw [← hres]
  simpa [mkResult] using this

/-- Claim C5: results come back best-first in every mode — semantic scores
(distances) non-decreasing, keyword scores non-increasing, hybrid fused
scores non-increasing. -/
theorem results_sorted_best_first (dist : Vec → VideoRecord → ℚ)
    (tsMatch : String → VideoRecord → Bool) (tsRank : String → VideoRecord → ℚ)
    (db : List VideoRecord) (q : String) (v : Vec) (k : Nat) :
    (searchSemantic dist db v k).Pairwise (fun a b => a.score ≤ b.score) ∧
    (searchKeyword tsMatch tsRank db q k).Pairwise (fun a b => b.score ≤ a.score) ∧
    (searchHybrid dist tsMatch tsRank db q v k).Pairwise
      (fun a b => b.score ≤ a.score) := by
  refine ⟨?_, ?_, ?_⟩
  · have hp := ((distSortAsc_pairwise (dist v) db).sublist
      (List.take_sublist k _)).map (fun r => mkResult "semantic" r (dist v r))
      (S := fun a b => a.score ≤ b.score) (fun a b hab => hab)
    exact hp
  · have hp := ((rankSortDesc_pairwise (tsRank q) (db.filter (tsMatch q))).sublist
      (List.take_sublist k _)).map (fun r => mkResult "keyword" r (tsRank q r))
      (S := fun a b => b.score ≤ a.score) (fun a b hab => hab)
    exact hp
  · have hp := (fusedSortDesc_pairwise (rrfUnion
      (semCandidates dist db v (k * 2))
      (kwCandidates tsMatch tsRank db q (k * 2)))).sublist (List.take_sublist k _)
    refine hp.filterMap (joinBack db) ?_
    intro a a' haa' b hb b' hb'
    rw [joinBack_score db a b hb, joinBack_score db a' b' hb']
    exact haa'

/-! ## Candidate list and lookup facts for the hybrid claims -/

theorem semCandidates_keys (dist : Vec → VideoRecord → ℚ) (db : List VideoRecord)
    (v : Vec) (ck : Nat) :
    (semCandidates dist db v ck).map Prod.fst =
      ((distSortAsc (dist v) db).take ck).map VideoRecord.s3_uri_h5 := by
  unfold semCandidates
  rw [List.map_map,
    show (Prod.fst ∘ fun p : Nat × VideoRecord => (p.2.s3_uri_h5, p.1 + 1)) =
      VideoRecord.s3_uri_h5 ∘ Prod.snd from rfl,
    ← List.map_map, List.enum_map_snd]

theorem kwCandidates_keys (tsMatch : String → VideoRecord → Bool)
    (tsRank : String → VideoRecord → ℚ) (db : List VideoRecord) (q : String)
    (ck : Nat) :
    (kwCandidates tsMatch tsRank db q ck).map Prod.fst =
      ((rankSortDesc (tsRank q) (db.filter (tsMatch q))).take ck).map
        VideoRecord.s3_uri_h5 := by
  unfold kwCandidates
  rw [List.map_map,
    show (Prod.fst ∘ fun p : Nat × VideoRecord => (p.2.s3_uri_h5, p.1 + 1)) =
      VideoRecord.s3_uri_h5 ∘ Prod.snd from rfl,
    ← List.map_map, List.enum_map_snd]

theorem enum_ranks (T : List VideoRecord) :
    (T.enum.map fun p => (p.2.s3_uri_h5, p.1 + 1)).map Prod.snd =
      List.range' 1 T.length := by
  rw [List.map_map,
    show (Prod.snd ∘ fun p : Nat × VideoRecord => (p.2.s3_uri_h5, p.1 + 1)) =
      (fun i => i + 1) ∘ Prod.fst from rfl,
    ← List.map_map, List.enum_map_fst, List.range'_eq_map_range]
  exact List.map_congr_left fun a _ => Nat.add_comm a 1

theorem semCandidates_ranks (dist : Vec → VideoRecord → ℚ) (db : List VideoRecord)
    (v : Vec) (ck : Nat) :
    (semCandidates dist db v ck).map Prod.snd = List.range' 1 (min ck db.length) := by
  unfold semCandidates
  rw [enum_ranks, List.length_take, (distSortAsc_perm (dist v) db).length_eq]

theorem kwCandidates_ranks (tsMatch : String → VideoRecord → Bool)
    (tsRank : String → VideoRecord → ℚ) (db : List VideoRecord) (q : String)
    (ck : Nat) :
    (kwCandidates tsMatch tsRank db q ck).map Prod.snd =
      List.range' 1 (min ck (db.filter (tsMatch q)).length) := by
  unfold kwCandidates
  rw [enum_ranks, List.length_take,
    (rankSortDesc_perm (tsRank q) (db.filter (tsMatch q))).length_eq]

theorem semCandidates_keys_nodup (dist : Vec → VideoRecord → ℚ)
    (db : List VideoRecord) (v : Vec) (ck : Nat)
    (hnd : (db.map VideoRecord.s3_uri_h5).Nodup) :
    ((semCandidates dist db v ck).map Prod.fst).Nodup := by
  rw [semCandidates_keys]
  have hperm : ((distSortAsc (dist v) db).map VideoRecord.s3_uri_h5).Perm
      (db.map VideoRecord.s3_uri_h5) := (distSortAsc_perm (dist v) db).map _
  exact ((List.take_sublist ck _).map _).nodup (hperm.nodup_iff.mpr hnd)

theorem kwCandidates_keys_nodup (tsMatch : String → VideoRecord → Bool)
    (tsRank : String → VideoRecord → ℚ) (db : List VideoRecord) (q : String)
    (ck : Nat) (hnd : (db.map VideoRecord.s3_uri_h5).Nodup) :
    ((kwCandidates tsMatch tsRank db q ck).map Prod.fst).Nodup := by
  rw [kwCandidates_keys]
  have hfil : ((db.filter (tsMatch q)).map VideoRecord.s3_uri_h5).Nodup :=
    ((List.filter_sublist db).map _).nodup hnd
  have hperm : ((rankSortDesc (tsRank q) (db.filter (tsMatch q))).map
      VideoRecord.s3_uri_h5).Perm ((db.filter (tsMatch q)).map VideoRecord.s3_uri_h5) :=
    (rankSortDesc_perm (tsRank q) _).map _
  exact ((List.take_sublist ck _).map _).nodup (hperm.nodup_iff.mpr hfil)

theorem lookupRank_eq_none_iff (l : List (String × Nat)) (key : String) :
    lookupRank l key = none ↔ key ∉ l.map Prod.fst := by
  unfold lookupRank
  rw [Option.map_eq_none', List.find?_eq_none]
  constructor
  · intro h hk
    rcases List.mem_map.mp hk with ⟨p, hp, hkey⟩
    exact h p hp (by simp [hkey])
  · intro h p hp hkey
    exact h (List.mem_map.mpr ⟨p, hp, by simpa using hkey⟩)

theorem lookupRank_of_mem (l : List (String × Nat))
    (hnd : (l.map Prod.fst).Nodup) (p : String × Nat) (hp : p ∈ l) :
    lookupRank l p.1 = some p.2 := by
  induction l with
  | nil => exact absurd hp (List.not_mem_nil p)
  | cons a t ih =>
    rcases List.mem_cons.mp hp with rfl | hp2
    · unfold lookupRank
      rw [List.find?_cons_of_pos _ (by simp)]
      rfl
    · have hnd2 := hnd
      rw [List.map_cons, List.nodup_cons] at hnd2
      have hne : a.1 ≠ p.1 := by
        intro he
        exact hnd2.1 (he ▸ List.mem_map.mpr ⟨p, hp2, rfl⟩)
      unfold lookupRank
      rw [List.find?_cons_of_neg _ (by simp [hne])]
      exact ih hnd2.2 hp2

/-- Every fused row's score is the sum of the two `COALESCE`d RRF terms for
its key's (possibly absent) ranks. -/
theorem mem_rrfUnion_score (sem kw : List (String × Nat))
    (hsem : (sem.map Prod.fst).Nodup) (hkw : (kw.map Prod.fst).Nodup)
    (p : String × ℚ) (hp : p ∈ rrfUnion sem kw) :
    p.2 = rrfTerm (lookupRank sem p.1) + rrfTerm (lookupRank kw p.1) := by
  unfold rrfUnion at hp
  rcases List.mem_append.mp hp with h | h
  · rcases List.mem_map.mp h with ⟨a, ha, rfl⟩
    rw [lookupRank_of_mem sem hsem a ha]
  · rcases List.mem_map.mp h with ⟨a, haf, rfl⟩
    rcases List.mem_filter.mp haf with ⟨ha, hcond⟩
    rw [decide_eq_true_eq] at hcond
    rw [hcond, lookupRank_of_mem kw hkw a ha]

theorem rrfUnion_keys_left (sem kw : List (String × Nat)) :
    ((sem.map fun p => (p.1, rrfTerm (some p.2) + rrfTerm (lookupRank kw p.1))).map
      Prod.fst) = sem.map Prod.fst := by
  rw [List.map_map]; rfl

theorem rrfUnion_keys_right (sem kw : List (String × Nat)) :
    (((kw.filter fun p => lookupRank sem p.1 = none).map fun p =>
      (p.1, rrfTerm none + rrfTerm (some p.2))).map Prod.fst) =
      (kw.filter fun p => lookupRank sem p.1 = none).map Prod.fst := by
  rw [List.map_map]; rfl

/-- The fused union's keys are exactly the union of the candidate keys. -/
theorem rrfUnion_keys_iff (sem kw : List (String × Nat)) (key : String) :
    key ∈ (rrfUnion sem kw).map Prod.fst ↔
      key ∈ sem.map Prod.fst ∨ key ∈ kw.map Prod.fst := by
  unfold rrfUnion
  rw [List.map_append, rrfUnion_keys_left, rrfUnion_keys_right, List.mem_append]
  constructor
  · rintro (h | h)
    · exact Or.inl h
    · rcases List.mem_map.mp h with ⟨a, haf, rfl⟩
      exact Or.inr (List.mem_map.mpr ⟨a, (List.mem_filter.mp haf).1, rfl⟩)
  · rintro (h | h)
    · exact Or.inl h
    · by_cases hs : key ∈ sem.map Prod.fst
      · exact Or.inl hs
      · rcases List.mem_map.mp h with ⟨a, ha, rfl⟩
        refine Or.inr (List.mem_map.mpr ⟨a, List.mem_filter.mpr ⟨ha, ?_⟩, rfl⟩)
        rw [decide_eq_true_eq]
        exact (lookupRank_eq_none_iff sem a.1).mpr hs

/-- With unique candidate keys, the fused union lists each key at most
once. -/
theorem rrfUnion_keys_nodup (sem kw : List (String × Nat))
    (hsem : (sem.map Prod.fst).Nodup) (hkw : (kw.map Prod.fst).Nodup) :
    ((rrfUnion sem kw).map Prod.fst).Nodup := by
  unfold rrfUnion
  rw [List.map_append, rrfUnion_keys_left, rrfUnion_keys_right]
  refine List.nodup_append.mpr ⟨hsem, ((List.filter_sublist kw).map _).nodup hkw, ?_⟩
  intro key hksem hkfil
  rcases List.mem_map.mp hkfil with ⟨a, haf, rfl⟩
  have hnone := (List.mem_filter.mp haf).2
  rw [decide_eq_true_eq] at hnone
  exact (lookupRank_eq_none_iff sem a.1).mp hnone hksem

/-- Every joined-back result's key is one of the fused pairs' keys. -/
theorem mem_filterMap_joinBack_key (db : List VideoRecord)
    (pairs : List (String × ℚ)) (res : ScoredResult)
    (h : res ∈ pairs.filterMap (joinBack db)) : res.hdf5 ∈ pairs.map Prod.fst := by
  rcases mem_filterMap_joinBack db pairs res h with ⟨p, hp, r, _, hr5, rfl⟩
  exact List.mem_map.mpr ⟨p, hp, by simpa [mkResult] using hr5.symm⟩

/-- Joined-back results keep distinct keys when the fused pairs do. -/
theorem filterMap_joinBack_keys_nodup (db : List VideoRecord)
    (pairs : List (String × ℚ)) (hnd : (pairs.map Prod.fst).Nodup) :
    ((pairs.filterMap (joinBack db)).map ScoredResult.hdf5).Nodup := by
  induction pairs with
  | nil => simp
  | cons p t ih =>
    rw [List.map_cons, List.nodup_cons] at hnd
    cases hj : joinBack db p with
    | none =>
      rw [List.filterMap_cons_none hj]
      exact ih hnd.2
    | some res =>
      rw [List.filterMap_cons_some hj, List.map_cons, List.nodup_cons]
      refine ⟨?_, ih hnd.2⟩
      intro hmem
      rcases List.mem_map.mp hmem with ⟨res2, hres2, heq⟩
      have h2 := mem_filterMap_joinBack_key db t res2 hres2
      rw [heq, joinBack_key db p res hj] at h2
      exact hnd.1 h2

/-- Claim C1: every hybrid result's fused score is the RRF sum with damping
constant 60 — `1/(60+r1) + 1/(60+r2)` when the record holds ranks `r1`
(semantic) and `r2` (keyword), `1/(60+r)` when it appears in exactly one
list at rank `r`, the absent list contributing 0. -/
theorem hybrid_fused_score_formula (dist : Vec → VideoRecord → ℚ)
    (tsMatch : String → VideoRecord → Bool) (tsRank : String → VideoRecord → ℚ)
    (db : List VideoRecord) (q : String) (v : Vec) (k : Nat)
    (hnd : (db.map VideoRecord.s3_uri_h5).Nodup) (res : ScoredResult)
    (hres : res ∈ searchHybrid dist tsMatch tsRank db q v k) :
    res.score = rrfTerm (lookupRank (semCandidates dist db v (k * 2)) res.hdf5) +
      rrfTerm (lookupRank (kwCandidates tsMatch tsRank db q (k * 2)) res.hdf5) ∧
    (∀ r1, (res.hdf5, r1) ∈ semCandidates dist db v (k * 2) →
      ∀ r2, (res.hdf5, r2) ∈ kwCandidates tsMatch tsRank db q (k * 2) →
        res.score = 1 / (60 + (r1 : ℚ)) + 1 / (60 + (r2 : ℚ))) ∧
    (∀ r1, (res.hdf5, r1) ∈ semCandidates dist db v (k * 2) →
      (∀ r2, (res.hdf5, r2) ∉ kwCandidates tsMatch tsRank db q (k * 2)) →
        res.score = 1 / (60 + (r1 : ℚ))) ∧
    (∀ r2, (res.hdf5, r2) ∈ kwCandidates tsMatch tsRank db q (k * 2) →
      (∀ r1, (res.hdf5, r1) ∉ semCandidates dist db v (k * 2)) →
        res.score = 1 / (60 + (r2 : ℚ))) := by
  have hsemnd := semCandidates_keys_nodup dist db v (k * 2) hnd
  have hkwnd := kwCandidates_keys_nodup tsMatch tsRank db q (k * 2) hnd
  rcases mem_filterMap_joinBack db _ res hres with ⟨p, hp, r, _, hr5, rfl⟩
  have hpU : p ∈ rrfUnion (semCandidates dist db v (k * 2))
      (kwCandidates tsMatch tsRank db q (k * 2)) :=
    (fusedSortDesc_perm _).mem_iff.mp (List.Sublist.mem hp (List.take_sublist k _))
  have hscore := mem_rrfUnion_score _ _ hsemnd hkwnd p hpU
  have hkey : (mkResult "hybrid" r p.2).hdf5 = p.1 := by simpa [mkResult] using hr5
  have hsval : (mkResult "hybrid" r p.2).score = p.2 := rfl
  rw [hkey, hsval]
  refine ⟨hscore, ?_, ?_, ?_⟩
  · intro r1 h1 r2 h2
    have e1 := lookupRank_of_mem _ hsemnd (p.1, r1) h1
    have e2 := lookupRank_of_mem _ hkwnd (p.1, r2) h2
    rw [hscore, e1, e2]; rfl
  · intro r1 h1 hno
    have e1 := lookupRank_of_mem _ hsemnd (p.1, r1) h1
    have e2 : lookupRank (kwCandidates tsMatch tsRank db q (k * 2)) p.1 = none := by
      refine (lookupRank_eq_none_iff _ _).mpr ?_
      intro hk
      rcases List.mem_map.mp hk with ⟨a, ha, ha1⟩
      exact hno a.2 (by rwa [show (p.1, a.2) = a from by rw [← ha1]])
    rw [hscore, e1, e2]
    simp [rrfTerm]
  · intro r2 h2 hno
    have e2 := lookupRank_of_mem _ hkwnd (p.1, r2) h2
    have e1 : lookupRank (semCandidates dist db v (k * 2)) p.1 = none := by
      refine (lookupRank_eq_none_iff _ _).mpr ?_
      intro hk
      rcases List.mem_map.mp hk with ⟨a, ha, ha1⟩
      exact hno a.2 (by rwa [show (p.1, a.2) = a from by rw [← ha1]])
    rw [hscore, e1, e2]
    simp [rrfTerm]

def wMatchNone : String → VideoRecord → Bool := fun _ _ => false

def wRec3 : VideoRecord := ⟨"wipe table", "s3://m3.mp4", "s3://h3.h5", "wipe the table"⟩

def wdb3 : List VideoRecord := [wRec, wRec2, wRec3]

def wDist3 : Vec → VideoRecord → ℚ := fun _ r =>
  if r = wRec then 1 else if r = wRec2 then 2 else 3

def wMatch3 : String → VideoRecord → Bool := fun _ r => r = wRec3

/-- Witness for C1 at a semantic-only record: rank 1 in the semantic list,
absent from the keyword list, fused score `1/(60+1)`. -/
theorem hybrid_fused_score_formula_witness :
    ([wRec].map VideoRecord.s3_uri_h5).Nodup ∧
    mkResult "hybrid" wRec (rrfTerm (some 1) + rrfTerm none) ∈
      searchHybrid wDist wMatchNone wRank [wRec] "fold" [1] 1 ∧
    (mkResult "hybrid" wRec (rrfTerm (some 1) + rrfTerm none)).score =
      1 / (60 + ((1 : Nat) : ℚ)) := by
  have hnd : ([wRec].map VideoRecord.s3_uri_h5).Nodup := by decide
  have hmem : mkResult "hybrid" wRec (rrfTerm (some 1) + rrfTerm none) ∈
      searchHybrid wDist wMatchNone wRank [wRec] "fold" [1] 1 :=
    List.mem_singleton.mpr rfl
  have hsem : ((mkResult "hybrid" wRec (rrfTerm (some 1) + rrfTerm none)).hdf5, 1) ∈
      semCandidates wDist [wRec] [1] (1 * 2) := List.mem_singleton.mpr rfl
  exact ⟨hnd, hmem,
    (hybrid_fused_score_formula wDist wMatchNone wRank [wRec] "fold" [1] 1 hnd _
      hmem).2.2.1 1 hsem (fun r2 h => absurd h (List.not_mem_nil _))⟩

/-- Claim C2: hybrid fusion unions the two candidate lists — the fused keys
are exactly the union of the candidate keys, a record found by only one
strategy still participates, each record fuses to at most one row, and a
returned record need only belong to one list. -/
theorem hybrid_union_no_double_count (dist : Vec → VideoRecord → ℚ)
    (tsMatch : String → VideoRecord → Bool) (tsRank : String → VideoRecord → ℚ)
    (db : List VideoRecord) (q : String) (v : Vec) (k : Nat)
    (hnd : (db.map VideoRecord.s3_uri_h5).Nodup) :
    ((searchHybrid dist tsMatch tsRank db q v k).map ScoredResult.hdf5).Nodup ∧
    (∀ key, key ∈ (rrfUnion (semCandidates dist db v (k * 2))
        (kwCandidates tsMatch tsRank db q (k * 2))).map Prod.fst ↔
      key ∈ (semCandidates dist db v (k * 2)).map Prod.fst ∨
        key ∈ (kwCandidates tsMatch tsRank db q (k * 2)).map Prod.fst) ∧
    (∀ res ∈ searchHybrid dist tsMatch tsRank db q v k,
      res.hdf5 ∈ (semCandidates dist db v (k * 2)).map Prod.fst ∨
        res.hdf5 ∈ (kwCandidates tsMatch tsRank db q (k * 2)).map Prod.fst) := by
  have hsemnd := semCandidates_keys_nodup dist db v (k * 2) hnd
  have hkwnd := kwCandidates_keys_nodup tsMatch tsRank db q (k * 2) hnd
  have hund := rrfUnion_keys_nodup _ _ hsemnd hkwnd
  refine ⟨?_, rrfUnion_keys_iff _ _, ?_⟩
  · refine filterMap_joinBack_keys_nodup db _ ?_
    have hperm : ((fusedSortDesc (rrfUnion (semCandidates dist db v (k * 2))
        (kwCandidates tsMatch tsRank db q (k * 2)))).map Prod.fst).Perm
        ((rrfUnion (semCandidates dist db v (k * 2))
          (kwCandidates tsMatch tsRank db q (k * 2))).map Prod.fst) :=
      (fusedSortDesc_perm _).map _
    exact ((List.take_sublist k _).map _).nodup (hperm.nodup_iff.mpr hund)
  · intro res hres
    have hkeys := mem_filterMap_joinBack_key db _ res hres
    rcases List.mem_map.mp hkeys with ⟨p, hp, hpk⟩
    have hpU : p ∈ rrfUnion (semCandidates dist db v (k * 2))
        (kwCandidates tsMatch tsRank db q (k * 2)) :=
      (fusedSortDesc_perm _).mem_iff.mp (List.Sublist.mem hp (List.take_sublist k _))
    have := (rrfUnion_keys_iff _ _ p.1).mp (List.mem_map.mpr ⟨p, hpU, rfl⟩)
    rwa [hpk] at this

/-- Witness for C2: a keyword-only record's key sits in the fused union. -/
theorem hybrid_union_no_double_count_witness :
    (wdb3.map VideoRecord.s3_uri_h5).Nodup ∧
    ("s3://h3.h5" ∈ (rrfUnion (semCandidates wDist3 wdb3 [1] (1 * 2))
        (kwCandidates wMatch3 wRank wdb3 "wipe" (1 * 2))).map Prod.fst ↔
      "s3://h3.h5" ∈ (semCandidates wDist3 wdb3 [1] (1 * 2)).map Prod.fst ∨
        "s3://h3.h5" ∈ (kwCandidates wMatch3 wRank wdb3 "wipe" (1 * 2)).map
          Prod.fst) :=
  ⟨by decide, (hybrid_union_no_double_count wDist3 wMatch3 wRank wdb3 "wipe" [1] 1
    (by decide)).2.1 "s3://h3.h5"⟩

/-- Pairwise order across a `take`/`drop` split of a sorted list. -/
theorem pairwise_take_drop {α : Type} {R : α → α → Prop} {l : List α}
    (h : l.Pairwise R) (n : Nat) :
    ∀ a ∈ l.take n, ∀ b ∈ l.drop n, R a b := by
  have hsplit : (l.take n ++ l.drop n).Pairwise R := by
    rw [List.take_append_drop]; exact h
  exact (List.pairwise_append.mp hsplit).2.2

/-- Claim C4: hybrid fusion runs over exactly the top `2k` candidates of
each strategy — the semantic list is the `2k` smallest-distance rows, the
keyword list is the `2k` best-ranked text-matching rows, each list carrying
1-based ranks `1, 2, …` in best-first order. -/
theorem hybrid_candidates_top_2k (dist : Vec → VideoRecord → ℚ)
    (tsMatch : String → VideoRecord → Bool) (tsRank : String → VideoRecord → ℚ)
    (db : List VideoRecord) (q : String) (v : Vec) (k : Nat) :
    searchHybrid dist tsMatch tsRank db q v k =
      ((fusedSortDesc (rrfUnion (semCandidates dist db v (k * 2))
        (kwCandidates tsMatch tsRank db q (k * 2)))).take k).filterMap
          (joinBack db) ∧
    (semCandidates dist db v (k * 2)).map Prod.fst =
      ((distSortAsc (dist v) db).take (k * 2)).map VideoRecord.s3_uri_h5 ∧
    (semCandidates dist db v (k * 2)).map Prod.snd =
      List.range' 1 (min (k * 2) db.length) ∧
    (∀ a ∈ (distSortAsc (dist v) db).take (k * 2),
      ∀ b ∈ (distSortAsc (dist v) db).drop (k * 2), dist v a ≤ dist v b) ∧
    (kwCandidates tsMatch tsRank db q (k * 2)).map Prod.fst =
      ((rankSortDesc (tsRank q) (db.filter (tsMatch q))).take (k * 2)).map
        VideoRecord.s3_uri_h5 ∧
    (kwCandidates tsMatch tsRank db q (k * 2)).map Prod.snd =
      List.range' 1 (min (k * 2) (db.filter (tsMatch q)).length) ∧
    (∀ a ∈ (rankSortDesc (tsRank q) (db.filter (tsMatch q))).take (k * 2),
      ∀ b ∈ (rankSortDesc (tsRank q) (db.filter (tsMatch q))).drop (k * 2),
        tsRank q b ≤ tsRank q a) ∧
    (∀ p ∈ kwCandidates tsMatch tsRank db q (k * 2),
      p.1 ∈ (db.filter (tsMatch q)).map VideoRecord.s3_uri_h5) := by
  refine ⟨rfl, semCandidates_keys dist db v (k * 2),
    semCandidates_ranks dist db v (k * 2),
    pairwise_take_drop (distSortAsc_pairwise (dist v) db) (k * 2),
    kwCandidates_keys tsMatch tsRank db q (k * 2),
    kwCandidates_ranks tsMatch tsRank db q (k * 2),
    pairwise_take_drop (rankSortDesc_pairwise (tsRank q) _) (k * 2), ?_⟩
  intro p hp
  have hkeys : p.1 ∈ (kwCandidates tsMatch tsRank db q (k * 2)).map Prod.fst :=
    List.mem_map.mpr ⟨p, hp, rfl⟩
  rw [kwCandidates_keys] at hkeys
  rcases List.mem_map.mp hkeys with ⟨r, hr, hrk⟩
  have hrf : r ∈ db.filter (tsMatch q) :=
    (rankSortDesc_perm (tsRank q) _).mem_iff.mp
      (List.Sublist.mem hr (List.take_sublist (k * 2) _))
  exact List.mem_map.mpr ⟨r, hrf, hrk⟩

/-- Witness for C4: in a 3-row store with `k = 1`, a kept semantic
candidate beats an excluded row on distance. -/
theorem hybrid_candidates_top_2k_witness :
    wRec ∈ (distSortAsc (wDist3 [1]) wdb3).take (1 * 2) ∧
    wRec3 ∈ (distSortAsc (wDist3 [1]) wdb3).drop (1 * 2) ∧
    wDist3 [1] wRec ≤ wDist3 [1] wRec3 :=
  ⟨by decide, by decide,
    (hybrid_candidates_top_2k wDist3 wMatch3 wRank wdb3 "wipe" [1] 1).2.2.2.1
      wRec (by decide) wRec3 (by decide)⟩

end Asimov
